import Mathlib

/-
Verification development for the BlockchainAnalyzer repository
(src/BC_Analyzer.py).  The core under study is the class
BlockchainAnalyzer: its recursive traversal `_process_transaction`, the
balance helper `_update_wallet_balance`, the public entry `build_graph`,
and the target validation in `main`.

Modelling conventions:
  * SQLite rows are modelled per column.  Columns that the program's own
    queries treat as nullable (`recipient`, `value`,
    `spending_transaction_hash` - the code itself filters
    `spending_transaction_hash IS NOT NULL`) are `Option`-typed.
  * Numeric values are modelled as rationals (exact arithmetic; IEEE-754
    rounding of Python floats is not modelled - no claim below depends
    on rounding).
  * `datetime.fromtimestamp` is modelled in UTC via the standard
    civil-from-days calendar algorithm; `datetime.strptime` with format
    "%Y-%m-%d %H:%M:%S" is modelled for canonical zero-padded strings
    (years 1000-9999).
  * The graph is a `networkx.DiGraph`: `add_edge` on an existing ordered
    pair overwrites that edge's attributes, `add_edge` with a `None`
    endpoint raises `ValueError` ("None cannot be a node"), and
    `float(None)` raises `TypeError`.  An uncaught exception is modelled
    by the `err` field: once set, every remaining operation of the
    traversal is skipped, which is exactly what stack unwinding does to
    the rest of the program (the mutated analyzer fields survive, since
    they live on the object).
  * The display-only node `label` attribute (string truncation and
    number formatting) is not modelled; the `balance` node attribute is.
  * Two instrumentation fields record externally observable actions that
    are not kept in any Python data structure: `emitted` is the sequence
    of successful `G.add_edge` calls, and `lookups` is the sequence of
    successor queries (`SELECT spending_transaction_hash FROM INPUTS
    WHERE recipient = ?`) that were executed.
  * Recursion uses step fuel; the development proves that results are
    fuel-independent once fuel exceeds the number of transaction hashes
    named by the ledger, which is the termination statement.
-/

namespace BCAnalyzer

/-- SQLite value stored in the TRANSACT.time column: NULL, an integer
epoch, or a text timestamp. -/
inductive TimeVal where
  | null : TimeVal
  | num : Int → TimeVal
  | text : String → TimeVal
deriving DecidableEq

/-- Row of the TRANSACT table (columns used by the program). -/
structure TransactRow where
  hash : String
  time : TimeVal
  input_total : Option ℚ
  output_total : Option ℚ
deriving DecidableEq

/-- Row of the INPUTS table (columns used by the program). -/
structure InputsRow where
  transaction_hash : String
  recipient : Option String
  value : Option ℚ
  spending_transaction_hash : Option String
deriving DecidableEq

/-- Row of the OUTPUTS table (columns used by the program). -/
structure OutputsRow where
  transaction_hash : String
  recipient : Option String
  value : Option ℚ
deriving DecidableEq

/-- The SQLite database BC.db: three tables in row order. -/
structure Ledger where
  TRANSACT : List TransactRow
  INPUTS : List InputsRow
  OUTPUTS : List OutputsRow
deriving DecidableEq

/-- Projection of an INPUTS/OUTPUTS row as fetched by
`SELECT recipient, value`. -/
abbrev RecRow := Option String × Option ℚ

/-- Uncaught Python exception kinds the emission loop can raise:
`ValueError` from `networkx` for a `None` node, `TypeError` from
`float(None)`. -/
inductive PyErr where
  | typeError : PyErr
  | valueError : PyErr
deriving DecidableEq

/-- A directed edge of the graph with its attributes, as stored by
`G.add_edge(sender, receiver, tx_id=..., value=..., date=...)`. -/
structure GEdge where
  sender : String
  receiver : String
  tx_id : String
  value : Option ℚ
  date : String
deriving DecidableEq

/-- Mutable analyzer state: the fields set in `__init__` plus the
traversal instrumentation described in the header comment. -/
structure AState where
  G : List GEdge
  wallet_balances : List (String × ℚ)
  visited_transactions : List String
  node_balances : List (String × ℚ)
  emitted : List GEdge
  lookups : List (Option String)
  err : Option PyErr
deriving DecidableEq

/-- State right after `BlockchainAnalyzer.__init__`: empty graph, empty
balance dict, empty visited set. -/
def initState : AState :=
  { G := [], wallet_balances := [], visited_transactions := [],
    node_balances := [], emitted := [], lookups := [], err := none }

/- ### Date parsing (`datetime.strptime` / `datetime.fromtimestamp`) -/

/-- Numeric value of a decimal digit character. -/
def digitVal (c : Char) : Nat := c.toNat - 48

/-- Gregorian leap-year test. -/
def isLeapYear (y : Nat) : Bool :=
  y % 4 == 0 && (y % 100 != 0 || y % 400 == 0)

/-- Days in a month of the proleptic Gregorian calendar. -/
def daysInMonth (y m : Nat) : Nat :=
  if m == 2 then (if isLeapYear y then 29 else 28)
  else if m == 4 || m == 6 || m == 9 || m == 11 then 30
  else 31

/-- Model of `datetime.strptime(s, "%Y-%m-%d %H:%M:%S")` followed by
`strftime("%Y-%m-%d")`, for canonical zero-padded timestamps with a
four-digit year of at least 1000 (the program's own data uses this
form); returns the date part on success. -/
def strptimeCanonicalDate (str : String) : Option String :=
  match str.data with
  | [y1, y2, y3, y4, c1, m1, m2, c2, d1, d2, c3, h1, h2, c4, n1, n2, c5, s1, s2] =>
    let year := digitVal y1 * 1000 + digitVal y2 * 100 + digitVal y3 * 10 + digitVal y4
    let month := digitVal m1 * 10 + digitVal m2
    let day := digitVal d1 * 10 + digitVal d2
    let hour := digitVal h1 * 10 + digitVal h2
    let minute := digitVal n1 * 10 + digitVal n2
    let second := digitVal s1 * 10 + digitVal s2
    if ([y1, y2, y3, y4, m1, m2, d1, d2, h1, h2, n1, n2, s1, s2].all Char.isDigit
        && c1 == '-' && c2 == '-' && c3 == ' ' && c4 == ':' && c5 == ':'
        && y1 != '0'
        && 1 ≤ month && month ≤ 12
        && 1 ≤ day && day ≤ daysInMonth year month
        && hour ≤ 23 && minute ≤ 59 && second ≤ 59) then
      some (String.mk [y1, y2, y3, y4, c1, m1, m2, c2, d1, d2])
    else none
  | _ => none

/-- Civil date (year, month, day) from a day count relative to
1970-01-01 (standard civil-from-days algorithm). -/
def civilFromDays (z0 : Int) : Int × Int × Int :=
  let z := z0 + 719468
  let era := Int.fdiv z 146097
  let doe := z - era * 146097
  let yoe := Int.fdiv (doe - Int.fdiv doe 1460 + Int.fdiv doe 36524 - Int.fdiv doe 146096) 365
  let y := yoe + era * 400
  let doy := doe - (365 * yoe + Int.fdiv yoe 4 - Int.fdiv yoe 100)
  let mp := Int.fdiv (5 * doy + 2) 153
  let d := doy - Int.fdiv (153 * mp + 2) 5 + 1
  let m := if mp < 10 then mp + 3 else mp - 9
  (if m ≤ 2 then y + 1 else y, m, d)

/-- Zero-pad a month or day number to two characters, as `%m`/`%d` do. -/
def pad2 (n : Int) : String :=
  if n < 10 then "0" ++ toString n else toString n

/-- Model of `datetime.fromtimestamp(n)` (UTC) followed by
`strftime("%Y-%m-%d")`; `none` when the epoch falls outside the
`datetime` year range 1..9999, where Python raises (caught by the
program). -/
def fromtimestampDate (n : Int) : Option String :=
  if -62135596800 ≤ n && n ≤ 253402300799 then
    let c := civilFromDays (Int.fdiv n 86400)
    some (toString c.1 ++ "-" ++ pad2 c.2.1 ++ "-" ++ pad2 c.2.2)
  else none

/-- The program's two-strategy timestamp parsing (lines 65-73 of
BC_Analyzer.py): `strptime` on the text form, falling back to
`int(tx_time)` plus `fromtimestamp`; `none` means both strategies
raised, the transaction is skipped. -/
def parseDate : TimeVal → Option String
  | TimeVal.null => none
  | TimeVal.num n => fromtimestampDate n
  | TimeVal.text t =>
    match strptimeCanonicalDate t with
    | some d => some d
    | none =>
      match t.toInt? with
      | some n => fromtimestampDate n
      | none => none

/- ### Ledger queries -/

/-- Query of lines 53-56: `SELECT hash, time, input_total, output_total
FROM TRANSACT WHERE hash = ?` with `fetchone()` (first matching row). -/
def getTransaction (L : Ledger) (tx_hash : String) : Option TransactRow :=
  (L.TRANSACT.filter (fun r => r.hash == tx_hash)).head?

/-- Query of lines 76-80: `SELECT recipient, value FROM INPUTS WHERE
transaction_hash = ?`. -/
def getInputs (L : Ledger) (tx_hash : String) : List RecRow :=
  (L.INPUTS.filter (fun r => r.transaction_hash == tx_hash)).map
    (fun r => (r.recipient, r.value))

/-- Query of lines 82-86: `SELECT recipient, value FROM OUTPUTS WHERE
transaction_hash = ?`. -/
def getOutputs (L : Ledger) (tx_hash : String) : List RecRow :=
  (L.OUTPUTS.filter (fun r => r.transaction_hash == tx_hash)).map
    (fun r => (r.recipient, r.value))

/-- Query of lines 107-111: `SELECT spending_transaction_hash FROM
INPUTS WHERE recipient = ? AND spending_transaction_hash IS NOT NULL`.
A SQL equality comparison with NULL matches nothing, hence the `none`
case. -/
def findSuccessors (L : Ledger) (recipient : Option String) : List String :=
  match recipient with
  | none => []
  | some a =>
    (L.INPUTS.filter (fun i => i.recipient == some a)).filterMap
      (fun i => i.spending_transaction_hash)

/-- Query of lines 128-132: `SELECT transaction_hash FROM INPUTS WHERE
recipient = ? UNION SELECT transaction_hash FROM OUTPUTS WHERE
recipient = ?` (UNION returns distinct rows). -/
def touchingTransactions (L : Ledger) (target : String) : List String :=
  ((L.INPUTS.filter (fun r => r.recipient == some target)).map
      (fun r => r.transaction_hash)
    ++ (L.OUTPUTS.filter (fun r => r.recipient == some target)).map
      (fun r => r.transaction_hash)).eraseDups

/- ### Graph and balance updates -/

/-- `networkx.DiGraph.add_edge` storage: an existing ordered pair keeps
its list position but has all three attributes overwritten; a new pair
is appended. -/
def addEdgeUpdate (u v tx_id : String) (value : Option ℚ) (date : String) :
    List GEdge → List GEdge
  | [] => [⟨u, v, tx_id, value, date⟩]
  | e :: rest =>
    if e.sender == u && e.receiver == v then ⟨u, v, tx_id, value, date⟩ :: rest
    else e :: addEdgeUpdate u v tx_id value date rest

/-- Write-through of a Python dict entry, keeping key insertion order. -/
def setBalance (w : String) (q : ℚ) : List (String × ℚ) → List (String × ℚ)
  | [] => [(w, q)]
  | e :: rest => if e.1 == w then (w, q) :: rest else e :: setBalance w q rest

/-- Lines 37-41, `_update_wallet_balance`:
`wallet_balances[wallet] = wallet_balances.get(wallet, 0.0) + amount`. -/
def updateWalletBalance (s : AState) (wallet : String) (amount : ℚ) : AState :=
  { s with wallet_balances := setBalance wallet (((s.wallet_balances.lookup wallet).getD 0) + amount) s.wallet_balances }

/-- Current balance of a wallet (`wallet_balances.get(w, 0.0)`). -/
def getBalance (s : AState) (w : String) : ℚ :=
  (s.wallet_balances.lookup w).getD 0

/-- Body of the inner cross-product loop, lines 93-101: `add_edge`
followed by the two balance updates.  A `None` endpoint makes
`add_edge` raise `ValueError` before anything is stored; a NULL value
makes `float(...)` raise `TypeError` after the edge was stored (and,
for the output value, after the sender was already debited). -/
def emitPair (tx_hash tx_date : String) (inp outp : RecRow) (s : AState) : AState :=
  if s.err.isSome then s
  else
    match inp.1, outp.1 with
    | some sender, some receiver =>
      let s1 : AState := { s with
        G := addEdgeUpdate sender receiver tx_hash outp.2 tx_date s.G,
        emitted := s.emitted ++ [⟨sender, receiver, tx_hash, outp.2, tx_date⟩] }
      match inp.2 with
      | none => { s1 with err := some PyErr.typeError }
      | some input_value =>
        let s2 := updateWalletBalance s1 sender (-input_value)
        match outp.2 with
        | none => { s2 with err := some PyErr.typeError }
        | some output_value => updateWalletBalance s2 receiver output_value
    | _, _ => { s with err := some PyErr.valueError }

/-- Inner loop of line 92: one input paired against every output. -/
def emitOutputs (tx_hash tx_date : String) (inp : RecRow) :
    List RecRow → AState → AState
  | [], s => s
  | o :: rest, s => emitOutputs tx_hash tx_date inp rest (emitPair tx_hash tx_date inp o s)

/-- Outer loop of line 91: the full input times output cross product. -/
def emitCross (tx_hash tx_date : String) :
    List RecRow → List RecRow → AState → AState
  | [], _, s => s
  | i :: rest, outs, s =>
    emitCross tx_hash tx_date rest outs (emitOutputs tx_hash tx_date i outs s)

/- ### The recursive traversal -/

/-- Loop of lines 116-117: expand every found successor transaction in
order.  Also reused for the seed loop of line 137, which has the same
shape. -/
def succsLoop (expand : String → AState → AState) :
    List String → AState → AState
  | [], s => s
  | t :: rest, s => succsLoop expand rest (expand t s)

/-- Loop of lines 105-117: for each output, run the successor query
(recorded in `lookups`) and expand each found successor.  Skipped
entirely while an exception is unwinding. -/
def outputsLoop (L : Ledger) (expand : String → AState → AState) :
    List RecRow → AState → AState
  | [], s => s
  | o :: rest, s =>
    if s.err.isSome then s
    else outputsLoop L expand rest
      (succsLoop expand (findSuccessors L o.1)
        { s with lookups := s.lookups ++ [o.1] })

/-- Lines 52-117 after the visited check: fetch the record (silent skip
when absent), parse the timestamp (skip when both strategies fail),
emit the cross product, and recurse when the depth budget allows
(`max_depth == 0 or current_depth < max_depth`). -/
def expandBody (L : Ledger) (tx_hash : String) (current_depth max_depth : Nat)
    (expand : String → AState → AState) (s : AState) : AState :=
  match getTransaction L tx_hash with
  | none => s
  | some row =>
    match parseDate row.time with
    | none => s
    | some tx_date =>
      let s2 := emitCross tx_hash tx_date (getInputs L tx_hash) (getOutputs L tx_hash) s
      if max_depth == 0 || current_depth < max_depth then
        outputsLoop L expand (getOutputs L tx_hash) s2
      else s2

/-- Lines 43-117, `_process_transaction`: return if already visited,
otherwise mark visited before anything else and run the body.  `fuel`
bounds the recursion depth of the model; fuel-independence is proved
below as the termination theorem.  A call made while an exception is
unwinding does nothing (in Python it would not be made at all). -/
def processTransaction (L : Ledger) :
    Nat → String → Nat → Nat → AState → AState
  | 0, _, _, _, s => s
  | fuel + 1, tx_hash, current_depth, max_depth, s =>
    if s.err.isSome then s
    else if tx_hash ∈ s.visited_transactions then s
    else
      expandBody L tx_hash current_depth max_depth
        (fun t st => processTransaction L fuel t (current_depth + 1) max_depth st)
        { s with visited_transactions := tx_hash :: s.visited_transactions }

/- ### Entry point -/

/-- Seed selection of lines 124-138: a 64-character target is expanded
directly as a transaction hash, any other length is looked up as a
wallet address. -/
def seedTransactions (L : Ledger) (target : String) : List String :=
  if target.length == 64 then [target] else touchingTransactions L target

/-- Node set of the graph: endpoints of edges in first-appearance
order (networkx nodes are created by `add_edge`). -/
def graphNodes (g : List GEdge) : List String :=
  (g.flatMap (fun e => [e.sender, e.receiver])).eraseDups

/-- Lines 140-144: copy each node's final balance onto the node as an
attribute.  Not reached when an exception is unwinding. -/
def finalizeNodes (s : AState) : AState :=
  if s.err.isSome then s
  else { s with node_balances :=
    (graphNodes s.G).map (fun n => (n, (s.wallet_balances.lookup n).getD 0)) }

/-- Lines 119-144, `build_graph`: expand every seed at depth 1, then
run the node-attribute pass. -/
def buildGraph (L : Ledger) (fuel : Nat) (target : String) (max_depth : Nat)
    (s : AState) : AState :=
  finalizeNodes
    (succsLoop (fun t st => processTransaction L fuel t 1 max_depth st)
      (seedTransactions L target) s)

/-- Target validation of line 643 in `main`:
`if not (len(target) == 34 or len(target) == 62): raise ValueError`. -/
def mainTargetLengthValid (target : String) : Bool :=
  target.length == 34 || target.length == 62

/- ### Derived notions used by the statements -/

/-- All transaction hashes the ledger can ever name during a traversal:
the TRANSACT keys and the non-null spending references in INPUTS. -/
def ledgerHashes (L : Ledger) : List String :=
  L.TRANSACT.map (fun r => r.hash)
    ++ L.INPUTS.filterMap (fun r => r.spending_transaction_hash)

/-- Number of ledger-named transaction hashes not yet visited; the
traversal's termination measure. -/
def remaining (L : Ledger) (s : AState) : Nat :=
  ((ledgerHashes L).toFinset \ s.visited_transactions.toFinset).card

/-- One traversal state extends another: the visited set only grows and
the emission sequence only gains a suffix. -/
def Extends (s s2 : AState) : Prop :=
  s.visited_transactions ⊆ s2.visited_transactions
    ∧ ∃ t, s2.emitted = s.emitted ++ t

/-- The expected cross-product emission of one transaction with the
given (non-null) input and output records. -/
def crossEdges (tx_hash tx_date : String) (ins outs : List (String × ℚ)) :
    List GEdge :=
  ins.flatMap (fun i => outs.map (fun o => ⟨i.1, o.1, tx_hash, some o.2, tx_date⟩))

/-- View of a non-null (address, value) record as a fetched row. -/
def liftRec (p : String × ℚ) : RecRow := (some p.1, some p.2)

/-- Total value carried by the records of `l` whose address is `a`. -/
def sumAt (l : List (String × ℚ)) (a : String) : ℚ :=
  ((l.filter (fun p => p.1 == a)).map Prod.snd).sum

/-- A ledger whose INPUTS and OUTPUTS rows all carry non-null recipient
and value columns. -/
abbrev CleanLedger (L : Ledger) : Prop :=
  (∀ r ∈ L.INPUTS, r.recipient.isSome ∧ r.value.isSome)
    ∧ (∀ r ∈ L.OUTPUTS, r.recipient.isSome ∧ r.value.isSome)

/-- Edge invariant of the output graph: the edge's transaction was
visited, its record exists, and the two (non-null) endpoints are drawn
from that same transaction's input and output records. -/
abbrev EdgeOK (L : Ledger) (V : List String) (e : GEdge) : Prop :=
  e.tx_id ∈ V ∧ (getTransaction L e.tx_id).isSome = true
    ∧ some e.sender ∈ (getInputs L e.tx_id).map Prod.fst
    ∧ some e.receiver ∈ (getOutputs L e.tx_id).map Prod.fst

/-- Every edge of the state's graph satisfies the edge invariant. -/
abbrev GraphOK (L : Ledger) (s : AState) : Prop :=
  ∀ e ∈ s.G, EdgeOK L s.visited_transactions e

/-- The graph holds at most one edge per ordered address pair (DiGraph
storage invariant). -/
abbrev KeysUnique (g : List GEdge) : Prop :=
  g.Pairwise (fun a b => ¬(a.sender = b.sender ∧ a.receiver = b.receiver))

/- ### Concrete test ledgers -/

/-- The end-to-end scenario ledger of spec section 8: transaction `tx1`
with inputs `[(A,5)]`, outputs `[(B,3),(C,2)]`, plus an INPUTS row
giving output address B a successor, so that a successor lookup would
find something if it were executed. -/
def Ltx1 : Ledger :=
  { TRANSACT := [⟨"tx1", TimeVal.text "2024-01-01 00:00:00", some 5, some 5⟩],
    INPUTS := [⟨"tx1", some "A", some 5, none⟩, ⟨"tx2", some "B", some 3, some "tx2"⟩],
    OUTPUTS := [⟨"tx1", some "B", some 3⟩, ⟨"tx1", some "C", some 2⟩] }

/-- A ledger whose successor relation is cyclic at the transaction
level: T1's output is spent by T2 and T2's output by T1. -/
def Lcyc : Ledger :=
  { TRANSACT := [⟨"T1", TimeVal.text "2024-01-01 00:00:00", some 1, some 1⟩,
                 ⟨"T2", TimeVal.text "2024-01-02 00:00:00", some 1, some 1⟩],
    INPUTS := [⟨"T1", some "A", some 1, some "T1"⟩, ⟨"T2", some "B", some 1, some "T2"⟩],
    OUTPUTS := [⟨"T1", some "B", some 1⟩, ⟨"T2", some "A", some 1⟩] }

/-- Two distinct transactions X1, X2, each moving funds from A to B
with different values and dates. -/
def Ldup : Ledger :=
  { TRANSACT := [⟨"X1", TimeVal.text "2024-01-01 00:00:00", some 1, some 1⟩,
                 ⟨"X2", TimeVal.text "2024-02-01 00:00:00", some 2, some 2⟩],
    INPUTS := [⟨"X1", some "A", some 1, none⟩, ⟨"X2", some "A", some 2, none⟩],
    OUTPUTS := [⟨"X1", some "B", some 1⟩, ⟨"X2", some "B", some 2⟩] }

/-- Two disjoint transactions touching different addresses. -/
def Ldisj : Ledger :=
  { TRANSACT := [⟨"Y1", TimeVal.text "2024-01-01 00:00:00", some 1, some 1⟩,
                 ⟨"Y2", TimeVal.text "2024-01-02 00:00:00", some 1, some 1⟩],
    INPUTS := [⟨"Y1", some "A", some 1, none⟩, ⟨"Y2", some "C", some 1, none⟩],
    OUTPUTS := [⟨"Y1", some "B", some 1⟩, ⟨"Y2", some "D", some 1⟩] }

/-- Transaction E1 carries a NULL input value (so `float(None)` raises
during its emission); E2 is a clean sibling touching the same seed
address. -/
def Lnull : Ledger :=
  { TRANSACT := [⟨"E1", TimeVal.text "2024-01-01 00:00:00", none, some 1⟩,
                 ⟨"E2", TimeVal.text "2024-01-02 00:00:00", some 1, some 1⟩],
    INPUTS := [⟨"E1", some "A", none, none⟩, ⟨"E2", some "A", some 1, none⟩],
    OUTPUTS := [⟨"E1", some "B", some 1⟩, ⟨"E2", some "B", some 1⟩] }

/-- Transaction N1 has one clean input record and one with a NULL
recipient address. -/
def Lnullrec : Ledger :=
  { TRANSACT := [⟨"N1", TimeVal.text "2024-01-01 00:00:00", some 2, some 1⟩],
    INPUTS := [⟨"N1", some "A", some 1, none⟩, ⟨"N1", none, some 1, none⟩],
    OUTPUTS := [⟨"N1", some "B", some 1⟩] }

/-- Transaction W1 has one input record and no output records. -/
def Lnoout : Ledger :=
  { TRANSACT := [⟨"W1", TimeVal.text "2024-01-01 00:00:00", some 1, some 0⟩],
    INPUTS := [⟨"W1", some "A", some 1, none⟩],
    OUTPUTS := [] }

/-- The empty ledger. -/
def Lempty : Ledger := { TRANSACT := [], INPUTS := [], OUTPUTS := [] }

/- ### Basic preservation lemmas for the emission chain -/

theorem updateWalletBalance_G (s : AState) (w : String) (q : ℚ) :
    (updateWalletBalance s w q).G = s.G := rfl

theorem updateWalletBalance_visited (s : AState) (w : String) (q : ℚ) :
    (updateWalletBalance s w q).visited_transactions = s.visited_transactions := rfl

theorem updateWalletBalance_emitted (s : AState) (w : String) (q : ℚ) :
    (updateWalletBalance s w q).emitted = s.emitted := rfl

theorem updateWalletBalance_lookups (s : AState) (w : String) (q : ℚ) :
    (updateWalletBalance s w q).lookups = s.lookups := rfl

theorem updateWalletBalance_err (s : AState) (w : String) (q : ℚ) :
    (updateWalletBalance s w q).err = s.err := rfl

theorem lookup_setBalance (w : String) (q : ℚ) (l : List (String × ℚ)) (x : String) :
    (setBalance w q l).lookup x = if x == w then some q else l.lookup x := by
  induction l with
  | nil =>
    by_cases h : x = w
    · simp [setBalance, List.lookup, h]
    · simp [setBalance, List.lookup, h, beq_eq_false_iff_ne.mpr h]
  | cons e rest ih =>
    rcases e with ⟨k, v⟩
    by_cases hkw : k = w
    · subst hkw
      by_cases hxk : x = k
      · simp [setBalance, List.lookup, hxk]
      · simp [setBalance, List.lookup, hxk, beq_eq_false_iff_ne.mpr hxk]
    · by_cases hxk : x = k
      · subst hxk
        have hxw : ¬x = w := hkw
        simp [setBalance, List.lookup, hxw, beq_eq_false_iff_ne.mpr hxw]
      · simp [setBalance, List.lookup, hkw, hxk, ih,
          beq_eq_false_iff_ne.mpr hkw, beq_eq_false_iff_ne.mpr hxk]

theorem getBalance_updateWalletBalance (s : AState) (w : String) (q : ℚ) (x : String) :
    getBalance (updateWalletBalance s w q) x
      = if x = w then getBalance s x + q else getBalance s x := by
  simp only [getBalance, updateWalletBalance, lookup_setBalance]
  by_cases hxw : x = w
  · simp [hxw]
  · simp [hxw, beq_iff_eq]

theorem emitPair_visited (th td : String) (i o : RecRow) (s : AState) :
    (emitPair th td i o s).visited_transactions = s.visited_transactions := by
  rcases i with ⟨i1, i2⟩
  rcases o with ⟨o1, o2⟩
  cases h : s.err <;> cases i1 <;> cases o1 <;> cases i2 <;> cases o2 <;>
    simp [emitPair, h, updateWalletBalance]

theorem emitPair_lookups (th td : String) (i o : RecRow) (s : AState) :
    (emitPair th td i o s).lookups = s.lookups := by
  rcases i with ⟨i1, i2⟩
  rcases o with ⟨o1, o2⟩
  cases h : s.err <;> cases i1 <;> cases o1 <;> cases i2 <;> cases o2 <;>
    simp [emitPair, h, updateWalletBalance]

theorem emitPair_node_balances (th td : String) (i o : RecRow) (s : AState) :
    (emitPair th td i o s).node_balances = s.node_balances := by
  rcases i with ⟨i1, i2⟩
  rcases o with ⟨o1, o2⟩
  cases h : s.err <;> cases i1 <;> cases o1 <;> cases i2 <;> cases o2 <;>
    simp [emitPair, h, updateWalletBalance]

theorem emitPair_emitted_append (th td : String) (i o : RecRow) (s : AState) :
    ∃ t, (emitPair th td i o s).emitted = s.emitted ++ t := by
  rcases i with ⟨i1, i2⟩
  rcases o with ⟨o1, o2⟩
  cases h : s.err with
  | some e => exact ⟨[], by simp [emitPair, h]⟩
  | none =>
    cases i1 with
    | none => exact ⟨[], by cases o1 <;> simp [emitPair, h]⟩
    | some a =>
      cases o1 with
      | none => exact ⟨[], by simp [emitPair, h]⟩
      | some b =>
        refine ⟨[⟨a, b, th, o2, td⟩], ?_⟩
        cases i2 <;> cases o2 <;> simp [emitPair, h, updateWalletBalance]

theorem emitOutputs_visited (th td : String) (i : RecRow) (outs : List RecRow) (s : AState) :
    (emitOutputs th td i outs s).visited_transactions = s.visited_transactions := by
  induction outs generalizing s with
  | nil => rfl
  | cons o rest ih => simp [emitOutputs, ih, emitPair_visited]

theorem emitOutputs_lookups (th td : String) (i : RecRow) (outs : List RecRow) (s : AState) :
    (emitOutputs th td i outs s).lookups = s.lookups := by
  induction outs generalizing s with
  | nil => rfl
  | cons o rest ih => simp [emitOutputs, ih, emitPair_lookups]

theorem emitOutputs_node_balances (th td : String) (i : RecRow) (outs : List RecRow) (s : AState) :
    (emitOutputs th td i outs s).node_balances = s.node_balances := by
  induction outs generalizing s with
  | nil => rfl
  | cons o rest ih => simp [emitOutputs, ih, emitPair_node_balances]

theorem emitOutputs_emitted_append (th td : String) (i : RecRow) (outs : List RecRow) (s : AState) :
    ∃ t, (emitOutputs th td i outs s).emitted = s.emitted ++ t := by
  induction outs generalizing s with
  | nil => exact ⟨[], by simp [emitOutputs]⟩
  | cons o rest ih =>
    obtain ⟨t1, h1⟩ := emitPair_emitted_append th td i o s
    obtain ⟨t2, h2⟩ := ih (emitPair th td i o s)
    exact ⟨t1 ++ t2, by simp [emitOutputs, h2, h1]⟩

theorem emitCross_visited (th td : String) (ins outs : List RecRow) (s : AState) :
    (emitCross th td ins outs s).visited_transactions = s.visited_transactions := by
  induction ins generalizing s with
  | nil => rfl
  | cons i rest ih => simp [emitCross, ih, emitOutputs_visited]

theorem emitCross_lookups (th td : String) (ins outs : List RecRow) (s : AState) :
    (emitCross th td ins outs s).lookups = s.lookups := by
  induction ins generalizing s with
  | nil => rfl
  | cons i rest ih => simp [emitCross, ih, emitOutputs_lookups]

theorem emitCross_node_balances (th td : String) (ins outs : List RecRow) (s : AState) :
    (emitCross th td ins outs s).node_balances = s.node_balances := by
  induction ins generalizing s with
  | nil => rfl
  | cons i rest ih => simp [emitCross, ih, emitOutputs_node_balances]

theorem emitCross_emitted_append (th td : String) (ins outs : List RecRow) (s : AState) :
    ∃ t, (emitCross th td ins outs s).emitted = s.emitted ++ t := by
  induction ins generalizing s with
  | nil => exact ⟨[], by simp [emitCross]⟩
  | cons i rest ih =>
    obtain ⟨t1, h1⟩ := emitOutputs_emitted_append th td i outs s
    obtain ⟨t2, h2⟩ := ih (emitOutputs th td i outs s)
    exact ⟨t1 ++ t2, by simp [emitCross, h2, h1]⟩

/- ### Monotonicity of the traversal -/

theorem extends_refl (s : AState) : Extends s s :=
  ⟨fun _ h => h, [], (List.append_nil _).symm⟩

theorem extends_trans {s1 s2 s3 : AState} (h1 : Extends s1 s2) (h2 : Extends s2 s3) :
    Extends s1 s3 := by
  obtain ⟨hv1, t1, he1⟩ := h1
  obtain ⟨hv2, t2, he2⟩ := h2
  exact ⟨fun x hx => hv2 (hv1 hx), t1 ++ t2, by simp [he2, he1]⟩

theorem extends_emitCross (th td : String) (ins outs : List RecRow) (s : AState) :
    Extends s (emitCross th td ins outs s) := by
  obtain ⟨t, ht⟩ := emitCross_emitted_append th td ins outs s
  exact ⟨by simp [emitCross_visited], t, ht⟩

theorem succsLoop_ext (expand : String → AState → AState)
    (h : ∀ t st, Extends st (expand t st)) :
    ∀ (ts : List String) (s : AState), Extends s (succsLoop expand ts s) := by
  intro ts
  induction ts with
  | nil => intro s; exact extends_refl s
  | cons t rest ih =>
    intro s
    exact extends_trans (h t s) (ih (expand t s))

theorem outputsLoop_ext (L : Ledger) (expand : String → AState → AState)
    (h : ∀ t st, Extends st (expand t st)) :
    ∀ (outs : List RecRow) (s : AState), Extends s (outputsLoop L expand outs s) := by
  intro outs
  induction outs with
  | nil => intro s; exact extends_refl s
  | cons o rest ih =>
    intro s
    by_cases herr : s.err.isSome
    · simp only [outputsLoop, herr, if_pos]
      exact extends_refl s
    · simp only [outputsLoop, herr, if_neg, Bool.not_eq_true]
      refine extends_trans ?_ (ih _)
      have h1 : Extends s { s with lookups := s.lookups ++ [o.1] } :=
        ⟨fun x hx => hx, [], by simp⟩
      exact extends_trans h1 (succsLoop_ext expand h _ _)

theorem expandBody_ext (L : Ledger) (tx : String) (d m : Nat)
    (expand : String → AState → AState)
    (h : ∀ t st, Extends st (expand t st)) (s : AState) :
    Extends s (expandBody L tx d m expand s) := by
  unfold expandBody
  split
  · exact extends_refl s
  · split
    · exact extends_refl s
    · split
      · exact extends_trans (extends_emitCross _ _ _ _ s) (outputsLoop_ext L expand h _ _)
      · exact extends_emitCross _ _ _ _ s

theorem processTransaction_ext (L : Ledger) :
    ∀ (fuel : Nat) (tx : String) (d m : Nat) (s : AState),
    Extends s (processTransaction L fuel tx d m s) := by
  intro fuel
  induction fuel with
  | zero => intro tx d m s; exact extends_refl s
  | succ f ih =>
    intro tx d m s
    simp only [processTransaction]
    split
    · exact extends_refl s
    · split
      · exact extends_refl s
      · have h1 : Extends s { s with visited_transactions := tx :: s.visited_transactions } :=
          ⟨fun x hx => List.mem_cons_of_mem _ hx, [], by simp⟩
        exact extends_trans h1 (expandBody_ext L tx d m _ (fun t st => ih t (d + 1) m st) _)

/- ### The termination measure -/

theorem list_toFinset_subset {l1 l2 : List String} (h : l1 ⊆ l2) :
    l1.toFinset ⊆ l2.toFinset := by
  intro x hx
  simp only [List.mem_toFinset] at hx ⊢
  exact h hx

theorem remaining_mono {L : Ledger} {s s2 : AState}
    (h : s.visited_transactions ⊆ s2.visited_transactions) :
    remaining L s2 ≤ remaining L s :=
  Finset.card_le_card
    (Finset.sdiff_subset_sdiff (Finset.Subset.refl _) (list_toFinset_subset h))

theorem remaining_extends {L : Ledger} {s s2 : AState} (h : Extends s s2) :
    remaining L s2 ≤ remaining L s := remaining_mono h.1

theorem remaining_eq_of_visited_eq {L : Ledger} {s s2 : AState}
    (h : s.visited_transactions = s2.visited_transactions) :
    remaining L s = remaining L s2 := by
  unfold remaining
  rw [h]

theorem remaining_mark_lt {L : Ledger} {s : AState} {tx : String}
    (hmem : tx ∈ ledgerHashes L) (hnv : tx ∉ s.visited_transactions) :
    remaining L { s with visited_transactions := tx :: s.visited_transactions }
      < remaining L s := by
  show ((ledgerHashes L).toFinset \ (tx :: s.visited_transactions).toFinset).card
      < ((ledgerHashes L).toFinset \ s.visited_transactions.toFinset).card
  rw [List.toFinset_cons, Finset.sdiff_insert]
  apply Finset.card_erase_lt_of_mem
  rw [Finset.mem_sdiff]
  exact ⟨List.mem_toFinset.mpr hmem, fun hc => hnv (List.mem_toFinset.mp hc)⟩

theorem getTransaction_mem_ledgerHashes {L : Ledger} {tx : String} {row : TransactRow}
    (h : getTransaction L tx = some row) : tx ∈ ledgerHashes L := by
  unfold getTransaction at h
  have hrow : row ∈ L.TRANSACT.filter (fun r => r.hash == tx) := by
    cases hf : L.TRANSACT.filter (fun r => r.hash == tx) with
    | nil => rw [hf] at h; simp at h
    | cons a t =>
      rw [hf] at h
      simp only [List.head?] at h
      have ha : a = row := Option.some_inj.mp h
      subst ha
      exact List.mem_cons_self a t
  rw [List.mem_filter] at hrow
  have hhash : row.hash = tx := by simpa using hrow.2
  apply List.mem_append_left
  rw [← hhash]
  exact List.mem_map.mpr ⟨row, hrow.1, rfl⟩

theorem getTransaction_isSome_mem_ledgerHashes {L : Ledger} {tx : String}
    (h : (getTransaction L tx).isSome = true) : tx ∈ ledgerHashes L := by
  cases hrec : getTransaction L tx with
  | none => rw [hrec] at h; simp at h
  | some row => exact getTransaction_mem_ledgerHashes hrec

theorem findSuccessors_mem_ledgerHashes {L : Ledger} {r : Option String} {t : String}
    (h : t ∈ findSuccessors L r) : t ∈ ledgerHashes L := by
  unfold findSuccessors at h
  cases r with
  | none => simp at h
  | some a =>
    rw [List.mem_filterMap] at h
    obtain ⟨i, hi, hspend⟩ := h
    exact List.mem_append_right _
      (List.mem_filterMap.mpr ⟨i, (List.mem_filter.mp hi).1, hspend⟩)

/- ### Fuel stabilization (termination of the traversal) -/

theorem processTransaction_zero (L : Ledger) (tx : String) (d m : Nat) (s : AState) :
    processTransaction L 0 tx d m s = s := rfl

theorem processTransaction_succ_def (L : Ledger) (f : Nat) (tx : String) (d m : Nat)
    (s : AState) :
    processTransaction L (f + 1) tx d m s =
      if s.err.isSome then s
      else if tx ∈ s.visited_transactions then s
      else expandBody L tx d m (fun t st => processTransaction L f t (d + 1) m st)
        { s with visited_transactions := tx :: s.visited_transactions } := rfl

theorem succsLoop_congr (L : Ledger) (e1 e2 : String → AState → AState) (n : Nat)
    (hstep : ∀ t st, remaining L st < n → e1 t st = e2 t st)
    (hmono : ∀ t st, Extends st (e2 t st)) :
    ∀ (ts : List String) (s : AState), remaining L s < n →
      succsLoop e1 ts s = succsLoop e2 ts s := by
  intro ts
  induction ts with
  | nil => intro s _; rfl
  | cons t rest ih =>
    intro s hs
    have h1 : e1 t s = e2 t s := hstep t s hs
    simp only [succsLoop, h1]
    exact ih (e2 t s) (lt_of_le_of_lt (remaining_extends (hmono t s)) hs)

theorem outputsLoop_congr (L : Ledger) (e1 e2 : String → AState → AState) (n : Nat)
    (hstep : ∀ t st, remaining L st < n → e1 t st = e2 t st)
    (hmono : ∀ t st, Extends st (e2 t st)) :
    ∀ (outs : List RecRow) (s : AState), remaining L s < n →
      outputsLoop L e1 outs s = outputsLoop L e2 outs s := by
  intro outs
  induction outs with
  | nil => intro s _; rfl
  | cons o rest ih =>
    intro s hs
    by_cases herr : s.err.isSome = true
    · simp only [outputsLoop, herr, if_true]
    · have herr2 : s.err.isSome = false := by
        cases hh : s.err.isSome
        · rfl
        · exact absurd hh herr
      simp only [outputsLoop, herr2, Bool.false_eq_true, if_false]
      have hrem1 : remaining L { s with lookups := s.lookups ++ [o.1] } < n := hs
      rw [succsLoop_congr L e1 e2 n hstep hmono _ _ hrem1]
      exact ih _
        (lt_of_le_of_lt (remaining_extends (succsLoop_ext e2 hmono _ _)) hrem1)

theorem expandBody_congr (L : Ledger) (tx : String) (d m : Nat)
    (e1 e2 : String → AState → AState) (n : Nat)
    (hstep : ∀ t st, remaining L st < n → e1 t st = e2 t st)
    (hmono : ∀ t st, Extends st (e2 t st))
    (s : AState) (hs : (getTransaction L tx).isSome = true → remaining L s < n) :
    expandBody L tx d m e1 s = expandBody L tx d m e2 s := by
  unfold expandBody
  cases hrec : getTransaction L tx with
  | none => rfl
  | some row =>
    have hs2 : remaining L s < n := hs (by rw [hrec]; rfl)
    dsimp only
    cases parseDate row.time with
    | none => rfl
    | some tx_date =>
      dsimp only
      by_cases hcond : (m == 0 || decide (d < m)) = true
      · simp only [hcond, if_true]
        exact outputsLoop_congr L e1 e2 n hstep hmono _ _
          (lt_of_le_of_lt (remaining_extends (extends_emitCross _ _ _ _ _)) hs2)
      · simp only [hcond, Bool.false_eq_true, if_false]

theorem processTransaction_fuel_succ (L : Ledger) :
    ∀ (f : Nat), ∀ (tx : String) (d m : Nat) (s : AState), remaining L s < f →
      processTransaction L (f + 1) tx d m s = processTransaction L f tx d m s := by
  intro f
  induction f using Nat.strong_induction_on with
  | _ f ih =>
    intro tx d m s hs
    obtain ⟨g, rfl⟩ : ∃ g, f = g + 1 := ⟨f - 1, by omega⟩
    rw [processTransaction_succ_def L (g + 1) tx d m s,
      processTransaction_succ_def L g tx d m s]
    by_cases herr : s.err.isSome = true
    · simp only [herr, if_true]
    · have herr2 : s.err.isSome = false := by
        cases hh : s.err.isSome
        · rfl
        · exact absurd hh herr
      simp only [herr2, Bool.false_eq_true, if_false]
      by_cases hv : tx ∈ s.visited_transactions
      · simp only [if_pos hv]
      · simp only [if_neg hv]
        apply expandBody_congr L tx d m _ _ g
        · intro t st hst
          exact ih g (by omega) t (d + 1) m st hst
        · intro t st
          exact processTransaction_ext L g t (d + 1) m st
        · intro hrec
          have hlt := @remaining_mark_lt L s tx
            (getTransaction_isSome_mem_ledgerHashes hrec) hv
          omega

theorem processTransaction_stable (L : Ledger) (tx : String) (d m : Nat) (s : AState) :
    ∀ (f : Nat), remaining L s < f →
      processTransaction L f tx d m s
        = processTransaction L (remaining L s + 1) tx d m s := by
  intro f
  induction f with
  | zero => intro h; omega
  | succ f ih =>
    intro h
    rcases Nat.lt_or_ge (remaining L s) f with hlt | hge
    · rw [processTransaction_fuel_succ L f tx d m s hlt]
      exact ih hlt
    · have : remaining L s = f := by omega
      rw [this]

theorem processTransaction_visited_noop (L : Ledger) (f : Nat) (tx : String) (d m : Nat)
    (s : AState) (h : tx ∈ s.visited_transactions) :
    processTransaction L f tx d m s = s := by
  cases f with
  | zero => rfl
  | succ f =>
    rw [processTransaction_succ_def]
    by_cases herr : s.err.isSome = true
    · rw [if_pos herr]
    · rw [if_neg herr, if_pos h]

theorem processTransaction_err_noop (L : Ledger) (f : Nat) (tx : String) (d m : Nat)
    (s : AState) (h : s.err.isSome = true) :
    processTransaction L f tx d m s = s := by
  cases f with
  | zero => rfl
  | succ f => rw [processTransaction_succ_def, if_pos h]

theorem mem_visited_processTransaction (L : Ledger) (f : Nat) (tx : String) (d m : Nat)
    (s : AState) (herr : s.err = none) :
    tx ∈ (processTransaction L (f + 1) tx d m s).visited_transactions := by
  rw [processTransaction_succ_def]
  have h1 : ¬(s.err.isSome = true) := by rw [herr]; simp
  rw [if_neg h1]
  by_cases hv : tx ∈ s.visited_transactions
  · rw [if_pos hv]; exact hv
  · rw [if_neg hv]
    have hext := expandBody_ext L tx d m
      (fun t st => processTransaction L f t (d + 1) m st)
      (fun t st => processTransaction_ext L f t (d + 1) m st)
      { s with visited_transactions := tx :: s.visited_transactions }
    exact hext.1 (List.mem_cons_self _ _)

/- ### The cross-product emission, lines 91-101 -/

theorem sumAt_cons (p : String × ℚ) (l : List (String × ℚ)) (x : String) :
    sumAt (p :: l) x = (if x = p.1 then p.2 else 0) + sumAt l x := by
  by_cases h : x = p.1
  · simp [sumAt, h, List.filter]
  · have : (p.1 == x) = false := beq_eq_false_iff_ne.mpr (fun hc => h hc.symm)
    simp [sumAt, h, List.filter, this]

theorem crossEdges_cons (th td : String) (i : String × ℚ) (rest outs : List (String × ℚ)) :
    crossEdges th td (i :: rest) outs
      = outs.map (fun o => ⟨i.1, o.1, th, some o.2, td⟩) ++ crossEdges th td rest outs := by
  simp [crossEdges]

theorem crossEdges_length (th td : String) (ins outs : List (String × ℚ)) :
    (crossEdges th td ins outs).length = ins.length * outs.length := by
  induction ins with
  | nil => simp [crossEdges]
  | cons i rest ih =>
    rw [crossEdges_cons]
    simp only [List.length_append, List.length_map, ih, List.length_cons]
    ring

theorem getBalance_set_G_emitted (s : AState) (g : List GEdge) (em : List GEdge) (x : String) :
    getBalance { s with G := g, emitted := em } x = getBalance s x := rfl

theorem emitPair_lift_eq (th td : String) (a : String) (v : ℚ) (b : String) (w : ℚ)
    (s : AState) (h : s.err = none) :
    emitPair th td (some a, some v) (some b, some w) s
      = updateWalletBalance
          (updateWalletBalance
            { s with G := addEdgeUpdate a b th (some w) td s.G,
                     emitted := s.emitted ++ [⟨a, b, th, some w, td⟩] } a (-v)) b w := by
  simp [emitPair, h]

theorem emitOutputs_lift (th td : String) (a : String) (v : ℚ) (outs : List (String × ℚ)) :
    ∀ s : AState, s.err = none →
      (emitOutputs th td (some a, some v) (outs.map liftRec) s).err = none
      ∧ (emitOutputs th td (some a, some v) (outs.map liftRec) s).emitted
          = s.emitted ++ outs.map (fun o => (⟨a, o.1, th, some o.2, td⟩ : GEdge))
      ∧ ∀ x, getBalance (emitOutputs th td (some a, some v) (outs.map liftRec) s) x
          = getBalance s x - (outs.length : ℚ) * (if x = a then v else 0) + sumAt outs x := by
  induction outs with
  | nil =>
    intro s h
    refine ⟨h, by simp [emitOutputs], ?_⟩
    intro x
    simp [emitOutputs, sumAt]
  | cons o rest ih =>
    intro s h
    have hpair := emitPair_lift_eq th td a v o.1 o.2 s h
    have hmap : (o :: rest).map liftRec = (some o.1, some o.2) :: rest.map liftRec := rfl
    rw [hmap]
    have hstep : emitOutputs th td (some a, some v) ((some o.1, some o.2) :: rest.map liftRec) s
        = emitOutputs th td (some a, some v) (rest.map liftRec)
            (emitPair th td (some a, some v) (some o.1, some o.2) s) := rfl
    rw [hstep, hpair]
    set s1 := updateWalletBalance
      (updateWalletBalance
        { s with G := addEdgeUpdate a o.1 th (some o.2) td s.G,
                 emitted := s.emitted ++ [⟨a, o.1, th, some o.2, td⟩] } a (-v)) o.1 o.2 with hs1
    have hs1err : s1.err = none := by
      rw [hs1, updateWalletBalance_err, updateWalletBalance_err]
      exact h
    obtain ⟨g1, g2, g3⟩ := ih s1 hs1err
    refine ⟨g1, ?_, ?_⟩
    · rw [g2, hs1, updateWalletBalance_emitted, updateWalletBalance_emitted]
      simp
    · intro x
      rw [g3 x]
      have hb1 : getBalance s1 x
          = getBalance s x + (if x = a then -v else 0) + (if x = o.1 then o.2 else 0) := by
        rw [hs1, getBalance_updateWalletBalance, getBalance_updateWalletBalance,
          getBalance_set_G_emitted]
        split_ifs <;> ring
      rw [hb1, sumAt_cons]
      simp only [List.length_cons]
      push_cast
      split_ifs <;> ring

theorem emitCross_lift (th td : String) (ins outs : List (String × ℚ)) :
    ∀ s : AState, s.err = none →
      (emitCross th td (ins.map liftRec) (outs.map liftRec) s).err = none
      ∧ (emitCross th td (ins.map liftRec) (outs.map liftRec) s).emitted
          = s.emitted ++ crossEdges th td ins outs
      ∧ ∀ x, getBalance (emitCross th td (ins.map liftRec) (outs.map liftRec) s) x
          = getBalance s x - (outs.length : ℚ) * sumAt ins x
            + (ins.length : ℚ) * sumAt outs x := by
  induction ins with
  | nil =>
    intro s h
    refine ⟨h, by simp [emitCross, crossEdges], ?_⟩
    intro x
    simp [emitCross, sumAt, crossEdges]
  | cons i rest ih =>
    intro s h
    have hmap : (i :: rest).map liftRec = (some i.1, some i.2) :: rest.map liftRec := rfl
    rw [hmap]
    have hstep : emitCross th td ((some i.1, some i.2) :: rest.map liftRec) (outs.map liftRec) s
        = emitCross th td (rest.map liftRec) (outs.map liftRec)
            (emitOutputs th td (some i.1, some i.2) (outs.map liftRec) s) := rfl
    rw [hstep]
    obtain ⟨h1, h2, h3⟩ := emitOutputs_lift th td i.1 i.2 outs s h
    obtain ⟨g1, g2, g3⟩ := ih _ h1
    refine ⟨g1, ?_, ?_⟩
    · rw [g2, h2, crossEdges_cons]
      simp
    · intro x
      rw [g3 x, h3 x, sumAt_cons]
      simp only [List.length_cons]
      push_cast
      ring

/- ### Path lemmas for one expansion step -/

theorem expandBody_eq_of_missing (L : Ledger) (tx : String) (d m : Nat)
    (expand : String → AState → AState) (s : AState)
    (hrec : getTransaction L tx = none) :
    expandBody L tx d m expand s = s := by
  unfold expandBody
  rw [hrec]

theorem expandBody_eq_of_baddate (L : Ledger) (tx : String) (d m : Nat)
    (expand : String → AState → AState) (s : AState) (row : TransactRow)
    (hrec : getTransaction L tx = some row) (hdate : parseDate row.time = none) :
    expandBody L tx d m expand s = s := by
  unfold expandBody
  rw [hrec]
  dsimp only
  rw [hdate]

theorem expandBody_eq_of_found (L : Ledger) (tx : String) (d m : Nat)
    (expand : String → AState → AState) (s : AState) (row : TransactRow) (tx_date : String)
    (hrec : getTransaction L tx = some row) (hdate : parseDate row.time = some tx_date) :
    expandBody L tx d m expand s
      = (if (m == 0 || decide (d < m)) = true then
          outputsLoop L expand (getOutputs L tx)
            (emitCross tx tx_date (getInputs L tx) (getOutputs L tx) s)
        else emitCross tx tx_date (getInputs L tx) (getOutputs L tx) s) := by
  unfold expandBody
  rw [hrec]
  dsimp only
  rw [hdate]

theorem processTransaction_expand_eq (L : Ledger) (f : Nat) (tx : String) (d m : Nat)
    (s : AState) (row : TransactRow) (tx_date : String)
    (herr : s.err = none) (hnv : tx ∉ s.visited_transactions)
    (hrec : getTransaction L tx = some row) (hdate : parseDate row.time = some tx_date) :
    processTransaction L (f + 1) tx d m s
      = (if (m == 0 || decide (d < m)) = true then
          outputsLoop L (fun t st => processTransaction L f t (d + 1) m st)
            (getOutputs L tx)
            (emitCross tx tx_date (getInputs L tx) (getOutputs L tx)
              { s with visited_transactions := tx :: s.visited_transactions })
        else emitCross tx tx_date (getInputs L tx) (getOutputs L tx)
          { s with visited_transactions := tx :: s.visited_transactions }) := by
  rw [processTransaction_succ_def]
  have h1 : ¬(s.err.isSome = true) := by rw [herr]; simp
  rw [if_neg h1, if_neg hnv, expandBody_eq_of_found L tx d m _ _ row tx_date hrec hdate]

theorem emitCross_nil_outputs (th td : String) : ∀ (ins : List RecRow) (s : AState),
    emitCross th td ins [] s = s := by
  intro ins
  induction ins with
  | nil => intro s; rfl
  | cons i rest ih => intro s; exact ih s

/- ### Error preservation on clean ledgers, and successor coverage -/

theorem cleanRows_getInputs {L : Ledger} (hL : CleanLedger L) (tx : String) :
    ∀ p ∈ getInputs L tx, p.1.isSome ∧ p.2.isSome := by
  intro p hp
  unfold getInputs at hp
  rw [List.mem_map] at hp
  obtain ⟨r, hr, hpr⟩ := hp
  have := hL.1 r (List.mem_filter.mp hr).1
  rw [← hpr]
  exact this

theorem cleanRows_getOutputs {L : Ledger} (hL : CleanLedger L) (tx : String) :
    ∀ p ∈ getOutputs L tx, p.1.isSome ∧ p.2.isSome := by
  intro p hp
  unfold getOutputs at hp
  rw [List.mem_map] at hp
  obtain ⟨r, hr, hpr⟩ := hp
  have := hL.2 r (List.mem_filter.mp hr).1
  rw [← hpr]
  exact this

theorem emitPair_err_none (th td : String) (i o : RecRow) (s : AState)
    (hi : i.1.isSome ∧ i.2.isSome) (ho : o.1.isSome ∧ o.2.isSome)
    (h : s.err = none) : (emitPair th td i o s).err = none := by
  obtain ⟨a, ha⟩ := Option.isSome_iff_exists.mp hi.1
  obtain ⟨v, hv⟩ := Option.isSome_iff_exists.mp hi.2
  obtain ⟨b, hb⟩ := Option.isSome_iff_exists.mp ho.1
  obtain ⟨w, hw⟩ := Option.isSome_iff_exists.mp ho.2
  rcases i with ⟨i1, i2⟩
  rcases o with ⟨o1, o2⟩
  simp only at ha hv hb hw
  subst ha hv hb hw
  rw [emitPair_lift_eq th td a v b w s h, updateWalletBalance_err, updateWalletBalance_err]
  exact h

theorem emitOutputs_err_none (th td : String) (i : RecRow) (outs : List RecRow)
    (hi : i.1.isSome ∧ i.2.isSome) (houts : ∀ p ∈ outs, p.1.isSome ∧ p.2.isSome) :
    ∀ s, s.err = none → (emitOutputs th td i outs s).err = none := by
  induction outs with
  | nil => intro s h; exact h
  | cons o rest ih =>
    intro s h
    have hstep : emitOutputs th td i (o :: rest) s
        = emitOutputs th td i rest (emitPair th td i o s) := rfl
    rw [hstep]
    exact ih (fun p hp => houts p (List.mem_cons_of_mem o hp)) _
      (emitPair_err_none th td i o s hi (houts o (List.mem_cons_self o rest)) h)

theorem emitCross_err_none (th td : String) (ins outs : List RecRow)
    (hins : ∀ p ∈ ins, p.1.isSome ∧ p.2.isSome)
    (houts : ∀ p ∈ outs, p.1.isSome ∧ p.2.isSome) :
    ∀ s, s.err = none → (emitCross th td ins outs s).err = none := by
  induction ins with
  | nil => intro s h; exact h
  | cons i rest ih =>
    intro s h
    have hstep : emitCross th td (i :: rest) outs s
        = emitCross th td rest outs (emitOutputs th td i outs s) := rfl
    rw [hstep]
    exact ih (fun p hp => hins p (List.mem_cons_of_mem i hp)) _
      (emitOutputs_err_none th td i outs (hins i (List.mem_cons_self i rest)) houts s h)

theorem succsLoop_err_none (expand : String → AState → AState)
    (hexp : ∀ t st, st.err = none → (expand t st).err = none) :
    ∀ (ts : List String) (s : AState), s.err = none →
      (succsLoop expand ts s).err = none := by
  intro ts
  induction ts with
  | nil => intro s h; exact h
  | cons t rest ih => intro s h; exact ih _ (hexp t s h)

theorem outputsLoop_err_none (L : Ledger) (expand : String → AState → AState)
    (hexp : ∀ t st, st.err = none → (expand t st).err = none) :
    ∀ (outs : List RecRow) (s : AState), s.err = none →
      (outputsLoop L expand outs s).err = none := by
  intro outs
  induction outs with
  | nil => intro s h; exact h
  | cons o rest ih =>
    intro s h
    have herrb : s.err.isSome = false := by rw [h]; rfl
    have hunfold : outputsLoop L expand (o :: rest) s
        = outputsLoop L expand rest (succsLoop expand (findSuccessors L o.1)
            { s with lookups := s.lookups ++ [o.1] }) := by
      simp [outputsLoop, herrb]
    rw [hunfold]
    exact ih _ (succsLoop_err_none expand hexp _ _ h)

theorem processTransaction_err_none (L : Ledger) (hL : CleanLedger L) :
    ∀ (f : Nat) (tx : String) (d m : Nat) (s : AState), s.err = none →
      (processTransaction L f tx d m s).err = none := by
  intro f
  induction f with
  | zero => intro tx d m s h; exact h
  | succ f ih =>
    intro tx d m s herr
    rw [processTransaction_succ_def]
    have h1 : ¬(s.err.isSome = true) := by rw [herr]; simp
    rw [if_neg h1]
    by_cases hv : tx ∈ s.visited_transactions
    · rw [if_pos hv]; exact herr
    · rw [if_neg hv]
      have hmerr : ({ s with visited_transactions := tx :: s.visited_transactions } : AState).err
          = none := herr
      cases hrec : getTransaction L tx with
      | none => rw [expandBody_eq_of_missing L tx d m _ _ hrec]; exact hmerr
      | some row =>
        cases hdate : parseDate row.time with
        | none => rw [expandBody_eq_of_baddate L tx d m _ _ row hrec hdate]; exact hmerr
        | some tx_date =>
          rw [expandBody_eq_of_found L tx d m _ _ row tx_date hrec hdate]
          have hs2 : (emitCross tx tx_date (getInputs L tx) (getOutputs L tx)
              { s with visited_transactions := tx :: s.visited_transactions }).err = none :=
            emitCross_err_none tx tx_date _ _ (cleanRows_getInputs hL tx)
              (cleanRows_getOutputs hL tx) _ hmerr
          by_cases hcond : (m == 0 || decide (d < m)) = true
          · rw [if_pos hcond]
            exact outputsLoop_err_none L _ (fun t st => ih t (d + 1) m st) _ _ hs2
          · rw [if_neg hcond]
            exact hs2

theorem succsLoop_mem_visited (expand : String → AState → AState)
    (hmem : ∀ t st, st.err = none → t ∈ (expand t st).visited_transactions)
    (hmono : ∀ t st, Extends st (expand t st))
    (hexp : ∀ t st, st.err = none → (expand t st).err = none) :
    ∀ (ts : List String) (s : AState), s.err = none →
      ∀ t ∈ ts, t ∈ (succsLoop expand ts s).visited_transactions := by
  intro ts
  induction ts with
  | nil => intro s _ t ht; exact absurd ht (List.not_mem_nil t)
  | cons t0 rest ih =>
    intro s herr t ht
    rcases List.mem_cons.mp ht with heq | ht2
    · subst heq
      exact (succsLoop_ext expand hmono rest (expand t s)).1 (hmem t s herr)
    · exact ih (expand t0 s) (hexp t0 s herr) t ht2

theorem outputsLoop_covers (L : Ledger) (expand : String → AState → AState)
    (hmem : ∀ t st, st.err = none → t ∈ (expand t st).visited_transactions)
    (hmono : ∀ t st, Extends st (expand t st))
    (hexp : ∀ t st, st.err = none → (expand t st).err = none) :
    ∀ (outs : List RecRow) (s : AState), s.err = none →
      ∀ o ∈ outs, ∀ t ∈ findSuccessors L o.1,
        t ∈ (outputsLoop L expand outs s).visited_transactions := by
  intro outs
  induction outs with
  | nil => intro s _ o ho; exact absurd ho (List.not_mem_nil o)
  | cons o0 rest ih =>
    intro s herr o ho t hts
    have herrb : s.err.isSome = false := by rw [herr]; rfl
    have hunfold : outputsLoop L expand (o0 :: rest) s
        = outputsLoop L expand rest (succsLoop expand (findSuccessors L o0.1)
            { s with lookups := s.lookups ++ [o0.1] }) := by
      simp [outputsLoop, herrb]
    rw [hunfold]
    have hs1err : ({ s with lookups := s.lookups ++ [o0.1] } : AState).err = none := herr
    rcases List.mem_cons.mp ho with heq | ho2
    · subst heq
      have hin := succsLoop_mem_visited expand hmem hmono hexp (findSuccessors L o.1)
        { s with lookups := s.lookups ++ [o.1] } hs1err t hts
      exact (outputsLoop_ext L expand hmono rest _).1 hin
    · exact ih _ (succsLoop_err_none expand hexp _ _ hs1err) o ho2 t hts

/- ### Graph-shape invariants -/

theorem mem_addEdgeUpdate {u v tx_id : String} {value : Option ℚ} {date : String}
    {g : List GEdge} {e : GEdge} (h : e ∈ addEdgeUpdate u v tx_id value date g) :
    e = ⟨u, v, tx_id, value, date⟩ ∨ e ∈ g := by
  induction g with
  | nil =>
    unfold addEdgeUpdate at h
    rcases List.mem_cons.mp h with h1 | h2
    · exact Or.inl h1
    · exact absurd h2 (List.not_mem_nil e)
  | cons e0 rest ih =>
    unfold addEdgeUpdate at h
    by_cases hc : (e0.sender == u && e0.receiver == v) = true
    · rw [if_pos hc] at h
      rcases List.mem_cons.mp h with h1 | h2
      · exact Or.inl h1
      · exact Or.inr (List.mem_cons_of_mem _ h2)
    · rw [if_neg hc] at h
      rcases List.mem_cons.mp h with h1 | h2
      · subst h1; exact Or.inr (List.mem_cons_self _ _)
      · rcases ih h2 with h3 | h4
        · exact Or.inl h3
        · exact Or.inr (List.mem_cons_of_mem _ h4)

theorem emitPair_G_cases (th td : String) (i o : RecRow) (s : AState) :
    (emitPair th td i o s).G = s.G
    ∨ ∃ a b, i.1 = some a ∧ o.1 = some b
        ∧ (emitPair th td i o s).G = addEdgeUpdate a b th o.2 td s.G := by
  rcases i with ⟨i1, i2⟩
  rcases o with ⟨o1, o2⟩
  cases h : s.err with
  | some x => left; simp [emitPair, h]
  | none =>
    cases i1 with
    | none => left; cases o1 <;> simp [emitPair, h]
    | some a =>
      cases o1 with
      | none => left; simp [emitPair, h]
      | some b =>
        right
        refine ⟨a, b, rfl, rfl, ?_⟩
        cases i2 <;> cases o2 <;> simp [emitPair, h, updateWalletBalance]

theorem edgeOK_mono {L : Ledger} {V V2 : List String} {e : GEdge}
    (hsub : V ⊆ V2) (h : EdgeOK L V e) : EdgeOK L V2 e :=
  ⟨hsub h.1, h.2.1, h.2.2.1, h.2.2.2⟩

theorem emitPair_graphOK (L : Ledger) (th td : String) (i o : RecRow) (s : AState)
    (hth : th ∈ s.visited_transactions) (hrec : (getTransaction L th).isSome = true)
    (hi : i.1 ∈ (getInputs L th).map Prod.fst) (ho : o.1 ∈ (getOutputs L th).map Prod.fst)
    (hs : GraphOK L s) : GraphOK L (emitPair th td i o s) := by
  intro e he
  have hvis := emitPair_visited th td i o s
  rw [hvis]
  rcases emitPair_G_cases th td i o s with hG | ⟨a, b, ha, hb, hG⟩
  · rw [hG] at he
    exact hs e he
  · rw [hG] at he
    rcases mem_addEdgeUpdate he with heq | hmem
    · subst heq
      exact ⟨hth, hrec, ha ▸ hi, hb ▸ ho⟩
    · exact hs e hmem

theorem emitOutputs_graphOK (L : Ledger) (th td : String) (i : RecRow)
    (outs : List RecRow) (hrec : (getTransaction L th).isSome = true)
    (hi : i.1 ∈ (getInputs L th).map Prod.fst)
    (houts : ∀ o ∈ outs, o.1 ∈ (getOutputs L th).map Prod.fst) :
    ∀ s, th ∈ s.visited_transactions → GraphOK L s →
      GraphOK L (emitOutputs th td i outs s) := by
  induction outs with
  | nil => intro s _ hs; exact hs
  | cons o rest ih =>
    intro s hth hs
    exact ih (fun o2 h2 => houts o2 (List.mem_cons_of_mem o h2)) _
      (by rw [emitPair_visited]; exact hth)
      (emitPair_graphOK L th td i o s hth hrec hi (houts o (List.mem_cons_self o rest)) hs)

theorem emitCross_graphOK (L : Ledger) (th td : String) (ins outs : List RecRow)
    (hrec : (getTransaction L th).isSome = true)
    (hins : ∀ i ∈ ins, i.1 ∈ (getInputs L th).map Prod.fst)
    (houts : ∀ o ∈ outs, o.1 ∈ (getOutputs L th).map Prod.fst) :
    ∀ s, th ∈ s.visited_transactions → GraphOK L s →
      GraphOK L (emitCross th td ins outs s) := by
  induction ins with
  | nil => intro s _ hs; exact hs
  | cons i rest ih =>
    intro s hth hs
    exact ih (fun i2 h2 => hins i2 (List.mem_cons_of_mem i h2)) _
      (by rw [emitOutputs_visited]; exact hth)
      (emitOutputs_graphOK L th td i outs hrec (hins i (List.mem_cons_self i rest)) houts
        s hth hs)

theorem succsLoop_inv (P : AState → Prop) (expand : String → AState → AState)
    (hstep : ∀ t st, P st → P (expand t st)) :
    ∀ (ts : List String) (s : AState), P s → P (succsLoop expand ts s) := by
  intro ts
  induction ts with
  | nil => intro s h; exact h
  | cons t rest ih => intro s h; exact ih _ (hstep t s h)

theorem outputsLoop_inv (L : Ledger) (P : AState → Prop)
    (expand : String → AState → AState)
    (hstep : ∀ t st, P st → P (expand t st))
    (hlook : ∀ (o : Option String) (st : AState), P st →
      P { st with lookups := st.lookups ++ [o] }) :
    ∀ (outs : List RecRow) (s : AState), P s → P (outputsLoop L expand outs s) := by
  intro outs
  induction outs with
  | nil => intro s h; exact h
  | cons o rest ih =>
    intro s h
    by_cases herr : s.err.isSome = true
    · simp only [outputsLoop, herr, if_true]
      exact h
    · have herr2 : s.err.isSome = false := by
        cases hh : s.err.isSome
        · rfl
        · exact absurd hh herr
      simp only [outputsLoop, herr2, Bool.false_eq_true, if_false]
      exact ih _ (succsLoop_inv P expand hstep _ _ (hlook o.1 s h))

theorem processTransaction_graphOK (L : Ledger) :
    ∀ (f : Nat) (tx : String) (d m : Nat) (s : AState),
      GraphOK L s → GraphOK L (processTransaction L f tx d m s) := by
  intro f
  induction f with
  | zero => intro tx d m s hs; exact hs
  | succ f ih =>
    intro tx d m s hs
    rw [processTransaction_succ_def]
    by_cases herr : s.err.isSome = true
    · rw [if_pos herr]; exact hs
    · rw [if_neg herr]
      by_cases hv : tx ∈ s.visited_transactions
      · rw [if_pos hv]; exact hs
      · rw [if_neg hv]
        have hmark : GraphOK L { s with visited_transactions := tx :: s.visited_transactions } := by
          intro e he
          exact edgeOK_mono (fun x hx => List.mem_cons_of_mem _ hx) (hs e he)
        cases hrec : getTransaction L tx with
        | none => rw [expandBody_eq_of_missing L tx d m _ _ hrec]; exact hmark
        | some row =>
          cases hdate : parseDate row.time with
          | none => rw [expandBody_eq_of_baddate L tx d m _ _ row hrec hdate]; exact hmark
          | some tx_date =>
            rw [expandBody_eq_of_found L tx d m _ _ row tx_date hrec hdate]
            have hcross := emitCross_graphOK L tx tx_date (getInputs L tx) (getOutputs L tx)
              (by rw [hrec]; rfl)
              (fun i hi => List.mem_map.mpr ⟨i, hi, rfl⟩)
              (fun o ho => List.mem_map.mpr ⟨o, ho, rfl⟩)
              { s with visited_transactions := tx :: s.visited_transactions }
              (List.mem_cons_self _ _) hmark
            by_cases hcond : (m == 0 || decide (d < m)) = true
            · rw [if_pos hcond]
              exact outputsLoop_inv L (GraphOK L) _
                (fun t st h => ih t (d + 1) m st h)
                (fun o st h => h) _ _ hcross
            · rw [if_neg hcond]
              exact hcross

theorem finalizeNodes_graphOK (L : Ledger) (s : AState) (h : GraphOK L s) :
    GraphOK L (finalizeNodes s) := by
  unfold finalizeNodes
  by_cases he : s.err.isSome = true
  · rw [if_pos he]; exact h
  · rw [if_neg he]; exact h

theorem keysUnique_addEdgeUpdate (u v tx_id : String) (value : Option ℚ) (date : String) :
    ∀ g : List GEdge, KeysUnique g → KeysUnique (addEdgeUpdate u v tx_id value date g) := by
  intro g
  induction g with
  | nil =>
    intro _
    unfold addEdgeUpdate
    exact List.pairwise_singleton _ _
  | cons e rest ih =>
    intro h
    obtain ⟨he, hrest⟩ := List.pairwise_cons.mp h
    unfold addEdgeUpdate
    by_cases hc : (e.sender == u && e.receiver == v) = true
    · rw [if_pos hc]
      rw [Bool.and_eq_true, beq_iff_eq, beq_iff_eq] at hc
      apply List.pairwise_cons.mpr
      refine ⟨?_, hrest⟩
      intro b hb hcontra
      exact he b hb ⟨by rw [hc.1]; exact hcontra.1, by rw [hc.2]; exact hcontra.2⟩
    · rw [if_neg hc]
      apply List.pairwise_cons.mpr
      refine ⟨?_, ih hrest⟩
      intro b hb
      rcases mem_addEdgeUpdate hb with heq | hbg
      · subst heq
        intro hcontra
        apply hc
        rw [Bool.and_eq_true, beq_iff_eq, beq_iff_eq]
        exact ⟨hcontra.1, hcontra.2⟩
      · exact he b hbg

theorem emitPair_keysUnique (th td : String) (i o : RecRow) (s : AState)
    (h : KeysUnique s.G) : KeysUnique (emitPair th td i o s).G := by
  rcases emitPair_G_cases th td i o s with hG | ⟨a, b, _, _, hG⟩
  · rw [hG]; exact h
  · rw [hG]; exact keysUnique_addEdgeUpdate a b th o.2 td s.G h

theorem emitOutputs_keysUnique (th td : String) (i : RecRow) (outs : List RecRow) :
    ∀ s, KeysUnique s.G → KeysUnique (emitOutputs th td i outs s).G := by
  induction outs with
  | nil => intro s h; exact h
  | cons o rest ih => intro s h; exact ih _ (emitPair_keysUnique th td i o s h)

theorem emitCross_keysUnique (th td : String) (ins outs : List RecRow) :
    ∀ s, KeysUnique s.G → KeysUnique (emitCross th td ins outs s).G := by
  induction ins with
  | nil => intro s h; exact h
  | cons i rest ih => intro s h; exact ih _ (emitOutputs_keysUnique th td i outs _ h)

theorem processTransaction_keysUnique (L : Ledger) :
    ∀ (f : Nat) (tx : String) (d m : Nat) (s : AState),
      KeysUnique s.G → KeysUnique (processTransaction L f tx d m s).G := by
  intro f
  induction f with
  | zero => intro tx d m s hs; exact hs
  | succ f ih =>
    intro tx d m s hs
    rw [processTransaction_succ_def]
    by_cases herr : s.err.isSome = true
    · rw [if_pos herr]; exact hs
    · rw [if_neg herr]
      by_cases hv : tx ∈ s.visited_transactions
      · rw [if_pos hv]; exact hs
      · rw [if_neg hv]
        cases hrec : getTransaction L tx with
        | none => rw [expandBody_eq_of_missing L tx d m _ _ hrec]; exact hs
        | some row =>
          cases hdate : parseDate row.time with
          | none => rw [expandBody_eq_of_baddate L tx d m _ _ row hrec hdate]; exact hs
          | some tx_date =>
            rw [expandBody_eq_of_found L tx d m _ _ row tx_date hrec hdate]
            have hcross := emitCross_keysUnique tx tx_date (getInputs L tx) (getOutputs L tx)
              { s with visited_transactions := tx :: s.visited_transactions } hs
            by_cases hcond : (m == 0 || decide (d < m)) = true
            · rw [if_pos hcond]
              exact outputsLoop_inv L (fun st => KeysUnique st.G) _
                (fun t st h => ih t (d + 1) m st h)
                (fun o st h => h) _ _ hcross
            · rw [if_neg hcond]
              exact hcross

/- ### Claim theorems -/

/-- C1: expanding a transaction with input records `ins` and output
records `outs` (all with non-null address and value) emits exactly one
edge per (input, output) pair - the emission sequence grows by the full
cross product, of length `ins.length * outs.length`, each entry carrying
sender = the input's address, receiver = the output's address, value =
the output's value and date = the transaction's parsed date - and every
address's balance changes by (minus the number of outputs times its
input contributions) plus (the number of inputs times its output
contributions), i.e. each input's value is debited once per output and
each output's value is credited once per input.  The full traversal's
emission sequence extends this cross product only with later
transactions' emissions. -/
theorem c1_cross_product_emission (L : Ledger) (f : Nat) (tx : String) (d m : Nat)
    (s : AState) (ins outs : List (String × ℚ)) (row : TransactRow) (tx_date : String)
    (herr : s.err = none) (hnv : tx ∉ s.visited_transactions)
    (hrec : getTransaction L tx = some row) (hdate : parseDate row.time = some tx_date)
    (hins : getInputs L tx = ins.map liftRec) (houts : getOutputs L tx = outs.map liftRec) :
    ((emitCross tx tx_date (getInputs L tx) (getOutputs L tx)
        { s with visited_transactions := tx :: s.visited_transactions }).emitted
      = s.emitted ++ crossEdges tx tx_date ins outs)
    ∧ (crossEdges tx tx_date ins outs).length = ins.length * outs.length
    ∧ (∀ x, getBalance (emitCross tx tx_date (getInputs L tx) (getOutputs L tx)
          { s with visited_transactions := tx :: s.visited_transactions }) x
        = getBalance s x - (outs.length : ℚ) * sumAt ins x
          + (ins.length : ℚ) * sumAt outs x)
    ∧ (∃ rest, (processTransaction L (f + 1) tx d m s).emitted
        = (s.emitted ++ crossEdges tx tx_date ins outs) ++ rest) := by
  have hmerr : ({ s with visited_transactions := tx :: s.visited_transactions } : AState).err
      = none := herr
  have hc := emitCross_lift tx tx_date ins outs
    { s with visited_transactions := tx :: s.visited_transactions } hmerr
  rw [hins, houts]
  refine ⟨hc.2.1, crossEdges_length _ _ _ _, hc.2.2, ?_⟩
  rw [processTransaction_expand_eq L f tx d m s row tx_date herr hnv hrec hdate, hins, houts]
  by_cases hcond : (m == 0 || decide (d < m)) = true
  · rw [if_pos hcond]
    obtain ⟨t, ht⟩ := (outputsLoop_ext L _
      (fun t st => processTransaction_ext L f t (d + 1) m st)
      (outs.map liftRec) (emitCross tx tx_date (ins.map liftRec) (outs.map liftRec)
        { s with visited_transactions := tx :: s.visited_transactions })).2
    exact ⟨t, by rw [ht, hc.2.1]⟩
  · rw [if_neg hcond]
    exact ⟨[], by rw [hc.2.1]; simp⟩

/-- Witness for C1 on the spec's end-to-end ledger: expanding `tx1` with
inputs `[(A,5)]` and outputs `[(B,3),(C,2)]` appends exactly the
2-element cross product to the emission sequence. -/
theorem c1_cross_product_emission_witness :
    (emitCross "tx1" "2024-01-01" (getInputs Ltx1 "tx1") (getOutputs Ltx1 "tx1")
        { initState with visited_transactions := "tx1" :: initState.visited_transactions }).emitted
      = initState.emitted ++ crossEdges "tx1" "2024-01-01" [("A", 5)] [("B", 3), ("C", 2)] :=
  (c1_cross_product_emission Ltx1 1 "tx1" 1 1 initState [("A", 5)] [("B", 3), ("C", 2)]
    ⟨"tx1", TimeVal.text "2024-01-01 00:00:00", some 5, some 5⟩ "2024-01-01"
    rfl (by decide) (by decide) (by decide) (by decide) (by decide)).1

/-- C10: a transaction with input records but no output records is a
complete no-op apart from being marked visited: no edges are emitted, no
balance is updated (in particular the input senders are never debited),
no successor lookup runs, and the state is otherwise unchanged. -/
theorem c10_no_outputs_no_effects (L : Ledger) (f : Nat) (tx : String) (d m : Nat)
    (s : AState) (row : TransactRow) (tx_date : String)
    (herr : s.err = none) (hnv : tx ∉ s.visited_transactions)
    (hrec : getTransaction L tx = some row) (hdate : parseDate row.time = some tx_date)
    (hinputs : getInputs L tx ≠ []) (houts : getOutputs L tx = []) :
    processTransaction L (f + 1) tx d m s
      = { s with visited_transactions := tx :: s.visited_transactions } := by
  rw [processTransaction_expand_eq L f tx d m s row tx_date herr hnv hrec hdate, houts]
  by_cases hcond : (m == 0 || decide (d < m)) = true
  · rw [if_pos hcond, emitCross_nil_outputs]
    rfl
  · rw [if_neg hcond, emitCross_nil_outputs]

/-- Witness for C10: transaction `W1` of `Lnoout` has one input and no
outputs; expanding it only marks it visited. -/
theorem c10_no_outputs_no_effects_witness :
    processTransaction Lnoout 3 "W1" 1 0 initState
      = { initState with visited_transactions := "W1" :: initState.visited_transactions } :=
  c10_no_outputs_no_effects Lnoout 2 "W1" 1 0 initState
    ⟨"W1", TimeVal.text "2024-01-01 00:00:00", some 1, some 0⟩ "2024-01-01"
    rfl (by decide) (by decide) (by decide) (by decide) (by decide)

/-- C2: the traversal terminates on every finite ledger, cyclic ones
included: once the fuel exceeds the number of never-visited transaction
hashes named by the ledger, the result no longer depends on the fuel.
Moreover a call on an already-visited transaction identifier is an exact
no-op, and calling the expansion a second time on the same transaction
identifier changes nothing (all edges and balance updates come from the
first call), because the identifier is added to the visited set before
any recursive call. -/
theorem c2_termination_and_idempotence (L : Ledger) (tx : String) (d m : Nat) (s : AState) :
    (∀ f1 f2 : Nat, remaining L s < f1 → remaining L s < f2 →
        processTransaction L f1 tx d m s = processTransaction L f2 tx d m s)
    ∧ (tx ∈ s.visited_transactions → ∀ f,
        processTransaction L f tx d m s = s)
    ∧ (s.err = none → ∀ f f2 d2 m2,
        processTransaction L f2 tx d2 m2 (processTransaction L (f + 1) tx d m s)
          = processTransaction L (f + 1) tx d m s) := by
  refine ⟨?_, ?_, ?_⟩
  · intro f1 f2 h1 h2
    rw [processTransaction_stable L tx d m s f1 h1,
      processTransaction_stable L tx d m s f2 h2]
  · intro hv f
    exact processTransaction_visited_noop L f tx d m s hv
  · intro herr f f2 d2 m2
    by_cases herr2 : (processTransaction L (f + 1) tx d m s).err.isSome = true
    · exact processTransaction_err_noop L f2 tx d2 m2 _ herr2
    · exact processTransaction_visited_noop L f2 tx d2 m2 _
        (mem_visited_processTransaction L f tx d m s herr)

/-- Witness for C2 on the cyclic ledger `Lcyc` (T1 spends into T2 and T2
back into T1): the result is fuel-independent past the bound, and
re-running the expansion on T1 changes nothing. -/
theorem c2_termination_and_idempotence_witness :
    processTransaction Lcyc 3 "T1" 1 0 initState
        = processTransaction Lcyc 10 "T1" 1 0 initState
    ∧ processTransaction Lcyc 7 "T1" 1 0 (processTransaction Lcyc 3 "T1" 1 0 initState)
        = processTransaction Lcyc 3 "T1" 1 0 initState :=
  ⟨(c2_termination_and_idempotence Lcyc "T1" 1 0 initState).1 3 10 (by decide) (by decide),
   (c2_termination_and_idempotence Lcyc "T1" 1 0 initState).2.2 rfl 2 7 1 0⟩

/-- C4: depth bounding.  With `maxDepth = 1` and a seed expanded at
depth 1, the expansion adds only the seed itself to the visited set and
performs no successor lookup - no transaction at recursion depth 2 is
queried or expanded.  With `maxDepth = 0` the depth guard always passes:
at any depth, every successor of every output of the expanded
transaction is itself visited in the result (expansion continues until
no successors remain or all reachable transactions are visited). -/
theorem c4_depth_bound (L : Ledger) (f : Nat) (tx : String) (s : AState)
    (row : TransactRow) (tx_date : String)
    (hL : CleanLedger L) (herr : s.err = none) (hnv : tx ∉ s.visited_transactions)
    (hrec : getTransaction L tx = some row) (hdate : parseDate row.time = some tx_date) :
    ((processTransaction L (f + 2) tx 1 1 s).visited_transactions
        = tx :: s.visited_transactions
      ∧ (processTransaction L (f + 2) tx 1 1 s).lookups = s.lookups)
    ∧ ∀ d, ∀ o ∈ getOutputs L tx, ∀ t ∈ findSuccessors L o.1,
        t ∈ (processTransaction L (f + 2) tx d 0 s).visited_transactions := by
  constructor
  · rw [processTransaction_expand_eq L (f + 1) tx 1 1 s row tx_date herr hnv hrec hdate]
    rw [if_neg (by decide)]
    exact ⟨emitCross_visited _ _ _ _ _, emitCross_lookups _ _ _ _ _⟩
  · intro d o ho t hts
    rw [processTransaction_expand_eq L (f + 1) tx d 0 s row tx_date herr hnv hrec hdate]
    rw [if_pos (by simp)]
    have hmerr : ({ s with visited_transactions := tx :: s.visited_transactions } : AState).err
        = none := herr
    have hs2 : (emitCross tx tx_date (getInputs L tx) (getOutputs L tx)
        { s with visited_transactions := tx :: s.visited_transactions }).err = none :=
      emitCross_err_none tx tx_date _ _ (cleanRows_getInputs hL tx)
        (cleanRows_getOutputs hL tx) _ hmerr
    exact outputsLoop_covers L _
      (fun t2 st he => mem_visited_processTransaction L f t2 (d + 1) 0 st he)
      (fun t2 st => processTransaction_ext L (f + 1) t2 (d + 1) 0 st)
      (fun t2 st he => processTransaction_err_none L hL (f + 1) t2 (d + 1) 0 st he)
      (getOutputs L tx) _ hs2 o ho t hts

/-- Witness for C4 on the clean cyclic ledger: with maxDepth 1 only T1
is visited and no lookup runs; with maxDepth 0 the successor T2 of T1's
output B is visited. -/
theorem c4_depth_bound_witness :
    ((processTransaction Lcyc 3 "T1" 1 1 initState).visited_transactions
        = "T1" :: initState.visited_transactions
      ∧ (processTransaction Lcyc 3 "T1" 1 1 initState).lookups = initState.lookups)
    ∧ "T2" ∈ (processTransaction Lcyc 3 "T1" 1 0 initState).visited_transactions := by
  have h := c4_depth_bound Lcyc 1 "T1" initState
    ⟨"T1", TimeVal.text "2024-01-01 00:00:00", some 1, some 1⟩ "2024-01-01"
    (by decide) rfl (by decide) (by decide) (by decide)
  exact ⟨h.1, h.2 1 (some "B", some 1) (by decide) "T2" (by decide)⟩

/-- C5 counterexample: expanding `tx1` at depth 1 with `maxDepth = 1`
performs NO successor lookup at all, although `tx1` has two output
records and output B even has a successor on the ledger - the successor
query sits inside the depth-guarded branch, so it is skipped entirely
when the depth budget is exhausted, contrary to the claim that the
lookups are still performed. -/
theorem c5_counterexample :
    (processTransaction Ltx1 5 "tx1" 1 1 initState).lookups = []
    ∧ getOutputs Ltx1 "tx1" ≠ []
    ∧ findSuccessors Ltx1 (some "B") ≠ [] := by
  exact ⟨by decide, by decide, by decide⟩

/-- C5 amended: expanding `tx1` at depth 1 with `maxDepth = 1` yields
exactly the edges A→B(3) and A→C(2) dated 2024-01-01, balances A = -10
(two cross-product debits of 5), B = 3, C = 2, marks only tx1 visited,
raises nothing, and performs neither recursion nor any successor lookup
(the lookups are skipped, not "performed but unexpanded"). -/
theorem c5_depth_exhausted_scenario :
    ((processTransaction Ltx1 5 "tx1" 1 1 initState).emitted,
     (processTransaction Ltx1 5 "tx1" 1 1 initState).visited_transactions,
     (processTransaction Ltx1 5 "tx1" 1 1 initState).lookups,
     (processTransaction Ltx1 5 "tx1" 1 1 initState).err)
      = ([⟨"A", "B", "tx1", some 3, "2024-01-01"⟩, ⟨"A", "C", "tx1", some 2, "2024-01-01"⟩],
         ["tx1"], [], none)
    ∧ getBalance (processTransaction Ltx1 5 "tx1" 1 1 initState) "A" = -10
    ∧ getBalance (processTransaction Ltx1 5 "tx1" 1 1 initState) "B" = 3
    ∧ getBalance (processTransaction Ltx1 5 "tx1" 1 1 initState) "C" = 2 := by
  refine ⟨by decide, ?_, ?_, ?_⟩ <;> with_unfolding_all rfl

/-- C7 counterexample: on `Lnull`, whose transaction E1 carries a NULL
input value, the `float(None)` TypeError raised during E1's edge/balance
emission is not caught anywhere: it propagates past E1's processing and
aborts the whole build (err is still set at `build_graph` level), and
the clean sibling seed E2 - also a transaction of the seed address A -
is never expanded. -/
theorem c7_counterexample :
    (buildGraph Lnull 3 "A" 0 initState).err = some PyErr.typeError
    ∧ "E2" ∉ (buildGraph Lnull 3 "A" 0 initState).visited_transactions
    ∧ "E2" ∈ touchingTransactions Lnull "A" := by
  exact ⟨by decide, by decide, by decide⟩

/-- C7 amended (the containment that does hold): a missing transaction
record is a silent skip of that transaction only - the traversal state
is unchanged except that the hash is marked visited, so siblings and
ancestors continue unaffected.  (Exceptions raised inside the
edge/balance emission, by contrast, are uncaught and abort the build,
as the counterexample shows.) -/
theorem c7_missing_record_silent_skip (L : Ledger) (f : Nat) (tx : String) (d m : Nat)
    (s : AState) (herr : s.err = none) (hnv : tx ∉ s.visited_transactions)
    (hrec : getTransaction L tx = none) :
    processTransaction L (f + 1) tx d m s
      = { s with visited_transactions := tx :: s.visited_transactions } := by
  rw [processTransaction_succ_def]
  have h1 : ¬(s.err.isSome = true) := by rw [herr]; simp
  rw [if_neg h1, if_neg hnv, expandBody_eq_of_missing L tx d m _ _ hrec]

/-- Witness for the C7 amended theorem: a hash absent from `Lnull` is
skipped silently, leaving only a visited mark. -/
theorem c7_missing_record_silent_skip_witness :
    processTransaction Lnull 3 "GHOST" 1 0 initState
      = { initState with visited_transactions := "GHOST" :: initState.visited_transactions } :=
  c7_missing_record_silent_skip Lnull 2 "GHOST" 1 0 initState rfl (by decide) (by decide)

/-- C9: the edge-endpoint invariant holds after every expansion step and
after a full build, on every ledger - including ledgers whose input or
output records carry null recipient addresses: every edge stored in the
graph has two non-null string endpoints (a null endpoint makes
`add_edge` raise before storing anything), its transaction is visited
and its record exists, and its sender and receiver are drawn from that
same transaction's input and output records respectively. -/
theorem c9_edge_endpoints_invariant (L : Ledger) (f : Nat) (tx target : String)
    (d m : Nat) (s : AState) (hs : GraphOK L s) :
    GraphOK L (processTransaction L f tx d m s)
    ∧ GraphOK L (buildGraph L f target m s) := by
  constructor
  · exact processTransaction_graphOK L f tx d m s hs
  · unfold buildGraph
    apply finalizeNodes_graphOK
    exact succsLoop_inv (GraphOK L) _
      (fun t st h => processTransaction_graphOK L f t 1 m st h) _ _ hs

/-- Witness for C9 on `Lnullrec`, whose transaction N1 has a clean input
record and a NULL-recipient input record: the invariant holds for every
edge of the resulting graph (the clean pair's edge is stored, the null
pair raises before storing). -/
theorem c9_edge_endpoints_invariant_witness :
    GraphOK Lnullrec (processTransaction Lnullrec 3 "N1" 1 0 initState)
    ∧ GraphOK Lnullrec (buildGraph Lnullrec 3 "A" 0 initState) :=
  c9_edge_endpoints_invariant Lnullrec 3 "N1" "A" 1 0 initState (by decide)

/-- C3 counterexample: on `Ldup`, two distinct transactions X1 and X2
each move funds from A to B and both are expanded (the emission sequence
records both add_edge calls), yet the finished graph holds a single A→B
edge whose attributes are X2's - the second `add_edge` overwrote X1's
tx_id, value and date, because `networkx.DiGraph` is not a multigraph. -/
theorem c3_counterexample :
    (buildGraph Ldup 3 "A" 0 initState).G
        = [⟨"A", "B", "X2", some 2, "2024-02-01"⟩]
    ∧ (buildGraph Ldup 3 "A" 0 initState).emitted.length = 2
    ∧ "X1" ∈ (buildGraph Ldup 3 "A" 0 initState).visited_transactions
    ∧ "X2" ∈ (buildGraph Ldup 3 "A" 0 initState).visited_transactions := by
  exact ⟨by decide, by decide, by decide, by decide⟩

/-- C3 amended: the finished graph is a simple directed graph, not a
multigraph: the graph built by any run holds at most one stored edge per
ordered pair of addresses, a later add_edge on the same pair overwriting
the earlier edge's tx_id, value and date; only the emission sequence
retains one entry per contributing (transaction, input, output)
triple. -/
theorem c3_digraph_single_edge_per_pair (L : Ledger) (f : Nat) (target : String)
    (m : Nat) (s : AState) (hs : KeysUnique s.G) :
    KeysUnique (buildGraph L f target m s).G := by
  unfold buildGraph
  have hloop : KeysUnique (succsLoop (fun t st => processTransaction L f t 1 m st)
      (seedTransactions L target) s).G :=
    succsLoop_inv (fun st => KeysUnique st.G) _
      (fun t st h => processTransaction_keysUnique L f t 1 m st h) _ _ hs
  unfold finalizeNodes
  by_cases he : (succsLoop (fun t st => processTransaction L f t 1 m st)
      (seedTransactions L target) s).err.isSome = true
  · rw [if_pos he]; exact hloop
  · rw [if_neg he]; exact hloop

/-- Witness for the C3 amended theorem: the graph built over `Ldup`
keeps unique ordered pairs. -/
theorem c3_digraph_single_edge_per_pair_witness :
    KeysUnique (buildGraph Ldup 3 "A" 0 initState).G :=
  c3_digraph_single_edge_per_pair Ldup 3 "A" 0 initState (by decide)

/-- C6 counterexample: on the two disjoint transactions of `Ldisj`, the
visited set produced by building from target C differs depending on
whether a build from target A ran before on the same analyzer state -
the build does not rebuild its state fresh. -/
theorem c6_counterexample :
    (buildGraph Ldisj 3 "C" 0 (buildGraph Ldisj 3 "A" 0 initState)).visited_transactions
      ≠ (buildGraph Ldisj 3 "C" 0 initState).visited_transactions := by
  decide

/-- C6 amended: the graph, balance ledger and visited set are created
empty once, at analyzer construction, and PERSIST across build
invocations on the same instance: any build only extends the visited set
and appends to the emission sequence, never clearing prior traversal
state, so a build's outcome depends on earlier builds. -/
theorem c6_state_persists (L : Ledger) (f : Nat) (target : String) (m : Nat)
    (s : AState) :
    (initState.G = [] ∧ initState.wallet_balances = []
      ∧ initState.visited_transactions = [])
    ∧ s.visited_transactions ⊆ (buildGraph L f target m s).visited_transactions
    ∧ ∃ t, (buildGraph L f target m s).emitted = s.emitted ++ t := by
  have hext : Extends s (succsLoop (fun t st => processTransaction L f t 1 m st)
      (seedTransactions L target) s) :=
    succsLoop_ext _ (fun t st => processTransaction_ext L f t 1 m st) _ _
  have hfin : ∀ s2 : AState,
      (finalizeNodes s2).visited_transactions = s2.visited_transactions
      ∧ (finalizeNodes s2).emitted = s2.emitted := by
    intro s2
    unfold finalizeNodes
    by_cases h : s2.err.isSome = true
    · rw [if_pos h]; exact ⟨rfl, rfl⟩
    · rw [if_neg h]; exact ⟨rfl, rfl⟩
  refine ⟨⟨rfl, rfl, rfl⟩, ?_, ?_⟩
  · unfold buildGraph
    rw [(hfin _).1]
    exact hext.1
  · unfold buildGraph
    rw [(hfin _).2]
    exact hext.2

/-- C8: seed-length routing versus entry-point validation.  A length-64
target is exactly what `build_graph` treats as a transaction hash, and
any other length (e.g. 62) is routed to the address-mode union query;
but `main` accepts only lengths 34 and 62, so it rejects the
64-character canonical hash - the claim that the entry point accepts the
canonical hash length contradicts the code, and through `main` the
transaction branch of `build_graph` is unreachable (an internal
inconsistency: main's message calls 62 the hash length while
build_graph tests 64). -/
theorem c8_main_rejects_canonical_hash :
    mainTargetLengthValid
        "0123456789012345678901234567890123456789012345678901234567890123" = false
    ∧ seedTransactions Lempty
          "0123456789012345678901234567890123456789012345678901234567890123"
        = ["0123456789012345678901234567890123456789012345678901234567890123"]
    ∧ mainTargetLengthValid
        "01234567890123456789012345678901234567890123456789012345678901" = true
    ∧ seedTransactions Lempty
          "01234567890123456789012345678901234567890123456789012345678901"
        = touchingTransactions Lempty
            "01234567890123456789012345678901234567890123456789012345678901" := by
  exact ⟨by decide, by decide, by decide, by decide⟩

end BCAnalyzer
